import Mathlib

/-!
# Verification of the work-item embedding pipeline

Shallow embedding of the repository `update-chromadb`:
* `clean_workitems.py` — text normalizer, chunker, record builder,
* `get_last_date.py` — sync watermark tracker,
* `upload_chromadb.py` — store reconciler.

Python strings are modelled as Lean `String` (a wrapper around `List Char`);
the Python string operations used by the source (`split`, `strip`,
`splitlines`, `replace`, `join`, f-strings) are re-implemented below on
character lists with Python semantics, so that every definition is
executable and every concrete input can be evaluated by the kernel.
-/

namespace UpdateChromadb

/-! ## Python string primitives -/

/-- The whitespace characters recognised by Python's `str.split()` /
`str.strip()` for the ASCII range (space, tab, newline, carriage return,
vertical tab, form feed). -/
def isPyWs (c : Char) : Bool :=
  c = ' ' || c = '\t' || c = '\n' || c = '\r' || c = '\x0b' || c = '\x0c'

/-- Accumulator-style worker for Python `str.split()` with no arguments:
splits on runs of whitespace and never produces empty words.  `acc` holds
the characters of the word currently being read, in reverse. -/
def wordsAux : List Char → List Char → List (List Char)
  | [], acc => if acc.isEmpty then [] else [acc.reverse]
  | c :: cs, acc =>
    if isPyWs c then
      if acc.isEmpty then wordsAux cs [] else acc.reverse :: wordsAux cs []
    else
      wordsAux cs (c :: acc)

/-- Characters of the words of a character list (Python `str.split()`). -/
def wordsCh (cs : List Char) : List (List Char) := wordsAux cs []

/-- Python `text.split()` — whitespace tokenization, no empty words. -/
def pyWords (s : String) : List String := (wordsCh s.data).map String.mk

/-- `sep`-joining of character lists, mirroring Python `sep.join(list)`. -/
def joinSep (sep : List Char) : List (List Char) → List Char
  | [] => []
  | [w] => w
  | w :: ws => w ++ sep ++ joinSep sep ws

/-- Python `" ".join(ws)`. -/
def spaceJoin (ws : List String) : String := ⟨joinSep [' '] (ws.map String.data)⟩

/-- Python `", ".join(ws)`. -/
def commaJoin (ws : List String) : String := ⟨joinSep [',', ' '] (ws.map String.data)⟩

/-- Python `"\n".join(ws)`. -/
def newlineJoin (ws : List String) : String := ⟨joinSep ['\n'] (ws.map String.data)⟩

/-- Python `str.strip()` on a character list. -/
def stripWsCh (cs : List Char) : List Char :=
  ((cs.dropWhile isPyWs).reverse.dropWhile isPyWs).reverse

/-- Python `str.strip()`. -/
def pyStrip (s : String) : String := ⟨stripWsCh s.data⟩

/-- Python `str.strip(ch)` for a single strip character: removes every
leading and trailing occurrence of `ch`. -/
def pyStripChar (s : String) (ch : Char) : String :=
  ⟨((s.data.dropWhile (· = ch)).reverse.dropWhile (· = ch)).reverse⟩

/-- Python `s.startswith(pre)`. -/
def pyStartsWith (s pre : String) : Bool := pre.data.isPrefixOf s.data

/-- Worker for Python `str.split(sep)` with a one-character separator:
keeps empty fields, including a trailing one. -/
def splitCharAux (sep : Char) : List Char → List Char → List String
  | [], acc => [⟨acc.reverse⟩]
  | c :: cs, acc =>
    if c = sep then ⟨acc.reverse⟩ :: splitCharAux sep cs []
    else splitCharAux sep cs (c :: acc)

/-- Python `s.split(sep)` for a one-character separator `sep`. -/
def pySplitChar (s : String) (sep : Char) : List String := splitCharAux sep s.data []

/-- Line-break characters recognised by Python `str.splitlines()`
(restricted to the code points the repository's data can contain). -/
def isLineBreak (c : Char) : Bool :=
  c = '\n' || c = '\r' || c = '\x0b' || c = '\x0c' ||
  c = '\x1c' || c = '\x1d' || c = '\x1e' || c = '\x85' ||
  c = '\u2028' || c = '\u2029'

/-- Worker for Python `str.splitlines()`: every terminator ends a line,
`"\r\n"` counts as a single terminator, and a final segment is a line only
when it is non-empty. -/
def splitLinesAux : List Char → List Char → List String
  | [], acc => if acc.isEmpty then [] else [⟨acc.reverse⟩]
  | '\r' :: '\n' :: cs, acc => ⟨acc.reverse⟩ :: splitLinesAux cs []
  | c :: cs, acc =>
    if isLineBreak c then ⟨acc.reverse⟩ :: splitLinesAux cs []
    else splitLinesAux cs (c :: acc)

/-- Python `text.splitlines()`. -/
def splitLinesPy (s : String) : List String := splitLinesAux s.data []

/-- Fuelled worker for `replAll`; each step consumes at least one input
character, so fuel `cs.length` is exact. -/
def replAllF (pat repl : List Char) : Nat → List Char → List Char
  | 0, cs => cs
  | _ + 1, [] => []
  | fuel + 1, c :: cs =>
    if pat ≠ [] ∧ pat.isPrefixOf (c :: cs) then
      repl ++ replAllF pat repl fuel ((c :: cs).drop pat.length)
    else
      c :: replAllF pat repl fuel cs

/-- Left-to-right, non-overlapping replacement of every occurrence of
`pat` (Python `str.replace`); the empty pattern is never used by the
source and is treated as "replace nothing". -/
def replAll (pat repl cs : List Char) : List Char :=
  replAllF pat repl cs.length cs

/-- Python `s.replace(pat, repl)`. -/
def pyReplace (s pat repl : String) : String := ⟨replAll pat.data repl.data s.data⟩

/-- Fuelled worker for `natDigits` (any fuel above the value is enough). -/
def natDigitsF : Nat → Nat → List Char
  | 0, _ => []
  | fuel + 1, n =>
    if n < 10 then [Char.ofNat (48 + n)]
    else natDigitsF fuel (n / 10) ++ [Char.ofNat (48 + n % 10)]

/-- Decimal digit characters of a natural number (Python `str(int)` for
non-negative values). -/
def natDigits (n : Nat) : List Char := natDigitsF (n + 1) n

/-- Python `str(n)` for a natural number. -/
def natToStr (n : Nat) : String := ⟨natDigits n⟩

/-- Python `str(i)` for an integer. -/
def intToStr (i : Int) : String :=
  if i < 0 then "-" ++ natToStr i.natAbs else natToStr i.natAbs

/-- Numeric value of a list of decimal digit characters. -/
def digitsVal (cs : List Char) : Nat :=
  cs.foldl (fun a c => 10 * a + (c.toNat - 48)) 0

/-! ### Lemmas about words / joins (used by the Chunker claims) -/

theorem wordsAux_mem_spec (cs : List Char) :
    ∀ acc, (∀ c ∈ acc, ¬ isPyWs c = true) →
      ∀ w ∈ wordsAux cs acc, w ≠ [] ∧ ∀ c ∈ w, ¬ isPyWs c = true := by
  induction cs with
  | nil =>
    intro acc hacc w hw
    simp only [wordsAux] at hw
    by_cases h : acc.isEmpty
    · simp [h] at hw
    · simp [h] at hw
      subst hw
      constructor
      · intro hrev
        apply h
        have := congrArg List.reverse hrev
        simpa using this
      · intro c hc
        exact hacc c (by simpa using hc)
  | cons c cs ih =>
    intro acc hacc w hw
    simp only [wordsAux] at hw
    by_cases hws : isPyWs c
    · simp only [hws, if_true] at hw
      by_cases hae : acc.isEmpty
      · simp only [hae, if_true] at hw
        exact ih [] (by simp) w hw
      · simp only [hae, if_false] at hw
        rcases List.mem_cons.mp hw with rfl | hw'
        · constructor
          · intro hrev
            apply hae
            have := congrArg List.reverse hrev
            simpa using this
          · intro c' hc'
            exact hacc c' (by simpa using hc')
        · exact ih [] (by simp) w hw'
    · simp only [hws, if_false] at hw
      refine ih (c :: acc) ?_ w hw
      intro c' hc'
      rcases List.mem_cons.mp hc' with rfl | hc''
      · simpa using hws
      · exact hacc c' hc''

theorem wordsCh_mem_spec (cs : List Char) :
    ∀ w ∈ wordsCh cs, w ≠ [] ∧ ∀ c ∈ w, ¬ isPyWs c = true :=
  wordsAux_mem_spec cs [] (by simp)

theorem wordsAux_nonws_run (w : List Char) (hw : ∀ c ∈ w, ¬ isPyWs c = true) :
    ∀ cs acc, wordsAux (w ++ cs) acc = wordsAux cs (w.reverse ++ acc) := by
  induction w with
  | nil => intro cs acc; simp
  | cons c w ih =>
    intro cs acc
    have hc : ¬ isPyWs c = true := hw c (by simp)
    have hw' : ∀ c' ∈ w, ¬ isPyWs c' = true := fun c' h => hw c' (by simp [h])
    simp only [List.cons_append, wordsAux, List.append_eq]
    rw [if_neg hc, ih hw' cs (c :: acc)]
    simp

theorem wordsCh_join_spec (gs : List (List Char))
    (h : ∀ g ∈ gs, g ≠ [] ∧ ∀ c ∈ g, ¬ isPyWs c = true) :
    wordsCh (joinSep [' '] gs) = gs := by
  induction gs with
  | nil => simp [wordsCh, joinSep, wordsAux]
  | cons g gs ih =>
    have hg := h g (by simp)
    have hgs : ∀ g' ∈ gs, g' ≠ [] ∧ ∀ c ∈ g', ¬ isPyWs c = true :=
      fun g' h' => h g' (by simp [h'])
    cases gs with
    | nil =>
      simp only [joinSep, wordsCh]
      rw [show g = g ++ ([] : List Char) by simp, wordsAux_nonws_run g hg.2]
      simp only [wordsAux]
      have hne : ¬ (g.reverse ++ ([] : List Char)).isEmpty = true := by
        simp [List.isEmpty_iff, hg.1]
      simp only [hne, if_false]
      simp
    | cons g' gs' =>
      simp only [joinSep, wordsCh] at *
      rw [List.append_assoc, wordsAux_nonws_run g hg.2]
      simp only [List.cons_append, wordsAux]
      have hsp : isPyWs ' ' = true := by decide
      have hne : ¬ (g.reverse ++ ([] : List Char)).isEmpty = true := by
        simp [List.isEmpty_iff, hg.1]
      rw [if_pos hsp, if_neg hne]
      simp only [List.append_eq, List.nil_append]
      rw [ih hgs]
      simp

theorem pyWords_spaceJoin (g : List String)
    (h : ∀ w ∈ g, w.data ≠ [] ∧ ∀ c ∈ w.data, ¬ isPyWs c = true) :
    pyWords (spaceJoin g) = g := by
  have hws : ∀ gc ∈ g.map String.data, gc ≠ [] ∧ ∀ c ∈ gc, ¬ isPyWs c = true := by
    intro gc hgc
    rcases List.mem_map.mp hgc with ⟨w, hw, rfl⟩
    exact h w hw
  show List.map String.mk (wordsCh (joinSep [' '] (g.map String.data))) = g
  rw [wordsCh_join_spec (g.map String.data) hws, List.map_map]
  have : (String.mk ∘ String.data) = id := by
    funext s; rfl
  rw [this, List.map_id]

/-! ## Chunker (`clean_workitems.py`, `chunk_text`, lines 155-161)

`chunk_text` iterates `for i in range(0, len(words), max_words)` and
appends `" ".join(words[i:i+max_words])`; this is the take/drop recursion
below.  Python raises `ValueError` on a zero step; the callers always pass
positive sizes and the claims assume `maxWords > 0`, so the zero case is
mapped to the empty list. -/

/-- Fuelled worker for `chunkWords`; each step consumes at least one word,
so fuel `ws.length` is enough. -/
def chunkWordsF : Nat → List String → Nat → List (List String)
  | 0, _, _ => []
  | fuel + 1, ws, m =>
    if m = 0 then []
    else if ws = [] then []
    else ws.take m :: chunkWordsF fuel (ws.drop m) m

def chunkWords (ws : List String) (m : Nat) : List (List String) :=
  chunkWordsF ws.length ws m

/-- `chunk_text(text, max_words)` from `clean_workitems.py`. -/
def chunk_text (text : String) (maxWords : Nat) : List String :=
  (chunkWords (pyWords text) maxWords).map spaceJoin

theorem chunkWordsF_stable : ∀ (fuel fuel' : Nat) (ws : List String) (m : Nat),
    ws.length ≤ fuel → ws.length ≤ fuel' →
    chunkWordsF fuel ws m = chunkWordsF fuel' ws m := by
  intro fuel
  induction fuel with
  | zero =>
    intro fuel' ws m h h'
    have hnil : ws = [] := List.length_eq_zero.mp (Nat.le_zero.mp h)
    subst hnil
    cases fuel' <;> simp [chunkWordsF]
  | succ f ih =>
    intro fuel' ws m h h'
    cases fuel' with
    | zero =>
      have hnil : ws = [] := List.length_eq_zero.mp (Nat.le_zero.mp h')
      subst hnil
      simp [chunkWordsF]
    | succ f' =>
      simp only [chunkWordsF]
      by_cases hm : m = 0
      · simp [hm]
      · by_cases hw : ws = []
        · simp [hw, hm]
        · rw [if_neg hm, if_neg hw, if_neg hm, if_neg hw]
          have h1 : 0 < ws.length := List.length_pos.mpr hw
          rw [ih f' (ws.drop m) m
            (by simp only [List.length_drop]; omega)
            (by simp only [List.length_drop]; omega)]

theorem chunkWords_unfold (ws : List String) (m : Nat) (hm : 0 < m) :
    chunkWords ws m
      = if ws = [] then [] else ws.take m :: chunkWords (ws.drop m) m := by
  cases ws with
  | nil => rfl
  | cons a as =>
    simp only [chunkWords, List.length_cons, chunkWordsF]
    rw [if_neg (by omega), if_neg (by simp : ¬ (a :: as) = []),
      if_neg (by simp : ¬ (a :: as) = [])]
    congr 1
    apply chunkWordsF_stable
    · simp only [List.length_drop, List.length_cons]; omega
    · exact le_rfl

theorem chunkWords_zero (ws : List String) : chunkWords ws 0 = [] := by
  cases ws <;> simp [chunkWords, chunkWordsF]

theorem chunkWords_eq_nil (ws : List String) (m : Nat) (hw : ws = []) :
    chunkWords ws m = [] := by
  subst hw; rfl

theorem chunkWords_join (ws : List String) (m : Nat) (hm : 0 < m) :
    (chunkWords ws m).flatten = ws := by
  rw [chunkWords_unfold ws m hm]
  by_cases hw : ws = []
  · simp [hw]
  · rw [if_neg hw, List.flatten_cons, chunkWords_join (ws.drop m) m hm]
    exact List.take_append_drop m ws
termination_by ws.length
decreasing_by
  simp only [List.length_drop]
  have := List.length_pos.mpr hw
  omega

theorem chunkWords_sizes (ws : List String) (m : Nat) (hm : 0 < m) :
    ∀ g ∈ chunkWords ws m, 0 < g.length ∧ g.length ≤ m := by
  rw [chunkWords_unfold ws m hm]
  by_cases hw : ws = []
  · simp [hw]
  · rw [if_neg hw]
    intro g hg
    rcases List.mem_cons.mp hg with rfl | hg'
    · have : 0 < ws.length := List.length_pos.mpr hw
      simp only [List.length_take]
      omega
    · exact chunkWords_sizes (ws.drop m) m hm g hg'
termination_by ws.length
decreasing_by
  simp only [List.length_drop]
  have := List.length_pos.mpr hw
  omega

theorem chunkWords_dropLast_full (ws : List String) (m : Nat) (hm : 0 < m) :
    ∀ g ∈ (chunkWords ws m).dropLast, g.length = m := by
  rw [chunkWords_unfold ws m hm]
  by_cases hw : ws = []
  · simp [hw]
  · rw [if_neg hw]
    intro g hg
    cases hrec : chunkWords (ws.drop m) m with
    | nil => simp [hrec] at hg
    | cons r rs =>
      rw [hrec, List.dropLast_cons_of_ne_nil (by simp)] at hg
      rcases List.mem_cons.mp hg with rfl | hg'
      · have hne : ws.drop m ≠ [] := by
          intro hnil
          rw [chunkWords_eq_nil _ _ hnil] at hrec
          exact List.noConfusion hrec
        have hlen : m < ws.length := by
          by_contra hle
          exact hne (List.drop_eq_nil_of_le (by omega))
        simp only [List.length_take]
        omega
      · exact chunkWords_dropLast_full (ws.drop m) m hm g (by rw [hrec]; exact hg')
termination_by ws.length
decreasing_by
  simp only [List.length_drop]
  have := List.length_pos.mpr hw
  omega

theorem chunkWords_mem_mem (ws : List String) (m : Nat) :
    ∀ g ∈ chunkWords ws m, ∀ w ∈ g, w ∈ ws := by
  by_cases h0 : m = 0
  · subst h0; rw [chunkWords_zero]; simp
  · rw [chunkWords_unfold ws m (by omega)]
    by_cases hw : ws = []
    · simp [hw]
    · rw [if_neg hw]
      intro g hg w hwg
      rcases List.mem_cons.mp hg with rfl | hg'
      · exact List.take_subset m ws hwg
      · exact List.drop_subset m ws (chunkWords_mem_mem (ws.drop m) m g hg' w hwg)
termination_by ws.length
decreasing_by
  simp only [List.length_drop]
  have := List.length_pos.mpr hw
  omega

theorem chunkWords_len_1200 (ws : List String) (h : ws.length = 1200) :
    (chunkWords ws 500).map List.length = [500, 500, 200] := by
  have h0 : ws ≠ [] := by intro hnil; rw [hnil] at h; simp at h
  rw [chunkWords_unfold _ _ (by omega), if_neg h0]
  have hd1 : (ws.drop 500).length = 700 := by simp [h]
  have h1 : ws.drop 500 ≠ [] := by
    intro hnil; rw [hnil] at hd1; simp at hd1
  rw [chunkWords_unfold _ _ (by omega), if_neg h1]
  have hd2 : ((ws.drop 500).drop 500).length = 200 := by simp [h]
  have h2 : (ws.drop 500).drop 500 ≠ [] := by
    intro hnil; rw [hnil] at hd2; simp at hd2
  rw [chunkWords_unfold _ _ (by omega), if_neg h2]
  have hd3 : (((ws.drop 500).drop 500).drop 500).length = 0 := by simp [h]
  have h3 : ((ws.drop 500).drop 500).drop 500 = [] :=
    List.length_eq_zero.mp hd3
  rw [chunkWords_eq_nil _ _ h3]
  simp [List.length_take, List.length_drop, h]

/-- Words of any chunk group of `pyWords text` recover the group itself
(space-join then re-split is the identity on whitespace-free words). -/
theorem pyWords_of_group (text : String) (m : Nat)
    (g : List String) (hg : g ∈ chunkWords (pyWords text) m) :
    pyWords (spaceJoin g) = g := by
  apply pyWords_spaceJoin
  intro w hw
  have hmem : w ∈ pyWords text := chunkWords_mem_mem _ m g hg w hw
  rcases List.mem_map.mp hmem with ⟨wc, hwc, rfl⟩
  have := wordsCh_mem_spec text.data wc hwc
  exact ⟨by simpa using this.1, this.2⟩

/-! ## Text Normalizer: table flattening
(`clean_workitems.py`, `markdown_table_to_sentences`, lines 24-49) -/

/-- The stripped input lines that start with `|`
(`[line.strip() for line in text.splitlines() if line.strip().startswith("|")]`). -/
def pipeLines (text : String) : List String :=
  ((splitLinesPy text).map pyStrip).filter (fun l => pyStartsWith l "|")

/-- `[v.strip() for v in row.strip("|").split("|")]` — the cells of a
header or data row. -/
def rowCells (row : String) : List String :=
  (pySplitChar (pyStripChar row '|') '|').map pyStrip

/-- `"Row: " + ", ".join(f"{h} = {v}" for h, v in zip(headers, values)) + "."`. -/
def mkRowSentence (headers values : List String) : String :=
  "Row: " ++ commaJoin ((headers.zip values).map (fun hv => hv.1 ++ " = " ++ hv.2)) ++ "."

/-- `markdown_table_to_sentences(text)` from `clean_workitems.py`:
fewer than two `|`-prefixed lines return the input unchanged; otherwise
the first `|`-line supplies headers, the second is skipped, and each
remaining `|`-line whose cell count matches the header count contributes
one `Row: ...` sentence to the space-joined result. -/
def markdown_table_to_sentences (text : String) : String :=
  let lines := pipeLines text
  if lines.length < 2 then text
  else
    let headers := rowCells (lines.headD "")
    let sentences := (lines.drop 2).foldl
      (fun acc row =>
        let values := rowCells row
        if values.length ≠ headers.length then acc
        else acc ++ [mkRowSentence headers values])
      []
    spaceJoin sentences

/-- The sentences of a candidate table, phrased the way the specification
describes them: headers from the first `|`-line, the second `|`-line
discarded, one sentence per later `|`-line with a matching cell count,
mismatching rows silently dropped. -/
def tableSentences : List String → List String
  | l0 :: _ :: rest =>
    let headers := rowCells l0
    rest.filterMap (fun row =>
      let values := rowCells row
      if values.length = headers.length then some (mkRowSentence headers values)
      else none)
  | _ => []

theorem sentences_foldl_eq (headers : List String) (rest : List String) :
    ∀ acc, rest.foldl
        (fun acc row =>
          let values := rowCells row
          if values.length ≠ headers.length then acc
          else acc ++ [mkRowSentence headers values])
        acc
      = acc ++ rest.filterMap (fun row =>
          let values := rowCells row
          if values.length = headers.length then some (mkRowSentence headers values)
          else none) := by
  induction rest with
  | nil => intro acc; simp
  | cons r rs ih =>
    intro acc
    by_cases h : (rowCells r).length = headers.length
    · simp only [List.foldl_cons, List.filterMap_cons]
      rw [if_neg (by simpa using h), if_pos h, ih]
      simp
    · simp only [List.foldl_cons, List.filterMap_cons]
      rw [if_pos (by simpa using h), if_neg h, ih]

theorem markdown_table_eq_tableSentences (t : String)
    (h : 2 ≤ (pipeLines t).length) :
    markdown_table_to_sentences t = spaceJoin (tableSentences (pipeLines t)) := by
  obtain ⟨l0, ls1, hcons⟩ : ∃ a l, pipeLines t = a :: l := by
    cases hpl : pipeLines t with
    | nil => rw [hpl] at h; simp at h
    | cons a l => exact ⟨a, l, rfl⟩
  obtain ⟨l1, ls2, hcons2⟩ : ∃ a l, ls1 = a :: l := by
    cases hpl : ls1 with
    | nil => rw [hpl] at hcons; rw [hcons] at h; simp at h
    | cons a l => exact ⟨a, l, rfl⟩
  unfold markdown_table_to_sentences
  rw [if_neg (by omega)]
  rw [hcons, hcons2]
  simp only [List.headD_cons, List.drop_succ_cons, List.drop_zero]
  rw [sentences_foldl_eq]
  simp [tableSentences]

/-! ## Timestamps

`datetime.fromisoformat` (as used after `value.replace("Z", "+00:00")`) is
modelled by `parseIso` with the documented grammar
`YYYY-MM-DD[<sep>HH[:MM[:SS[.fff|.ffffff]]]][±HH:MM[:SS]]`, validating
calendar ranges exactly as `datetime` construction does.  `strftime` /
`strptime` for the fixed formats of the source are modelled concretely. -/

/-- Reads exactly `n` decimal digits, returning their value and the rest. -/
def readNDigits (n : Nat) (cs : List Char) : Option (Nat × List Char) :=
  let pre := cs.take n
  if pre.length = n ∧ pre.all Char.isDigit then some (digitsVal pre, cs.drop n)
  else none

/-- Consumes one expected character. -/
def expectChar (c : Char) : List Char → Option (List Char)
  | [] => none
  | x :: xs => if x = c then some xs else none

/-- Fractional seconds: exactly 3 or 6 digits, value in microseconds. -/
def parseFrac (cs : List Char) : Option (Nat × List Char) :=
  let ds := cs.takeWhile Char.isDigit
  let rest := cs.dropWhile Char.isDigit
  if ds.length = 3 then some (digitsVal ds * 1000, rest)
  else if ds.length = 6 then some (digitsVal ds, rest)
  else none

/-- `HH[:MM[:SS[.frac]]]` returning `(hour, minute, second, usec)`. -/
def parseTimePart (cs : List Char) : Option ((Nat × Nat × Nat × Nat) × List Char) :=
  match readNDigits 2 cs with
  | none => none
  | some (h, cs1) =>
    match cs1 with
    | ':' :: cs2 =>
      match readNDigits 2 cs2 with
      | none => none
      | some (mi, cs3) =>
        match cs3 with
        | ':' :: cs4 =>
          match readNDigits 2 cs4 with
          | none => none
          | some (s, cs5) =>
            match cs5 with
            | '.' :: cs6 =>
              match parseFrac cs6 with
              | none => none
              | some (us, cs7) => some ((h, mi, s, us), cs7)
            | _ => some ((h, mi, s, 0), cs5)
        | _ => some ((h, mi, 0, 0), cs3)
    | _ => some ((h, 0, 0, 0), cs1)

/-- Optional `±HH:MM[:SS]` UTC offset, in seconds. -/
def parseTzOffset : List Char → Option (Option Int × List Char)
  | [] => some (none, [])
  | c :: cs =>
    if c = '+' ∨ c = '-' then
      match readNDigits 2 cs with
      | none => none
      | some (oh, cs1) =>
        match expectChar ':' cs1 with
        | none => none
        | some cs2 =>
          match readNDigits 2 cs2 with
          | none => none
          | some (om, cs3) =>
            let finish := fun (os : Nat) (rest : List Char) =>
              if oh ≤ 23 ∧ om ≤ 59 ∧ os ≤ 59 then
                let total : Int := ((oh * 3600 + om * 60 + os : Nat) : Int)
                some (some (if c = '+' then total else -total), rest)
              else none
            match cs3 with
            | ':' :: cs4 =>
              match readNDigits 2 cs4 with
              | none => none
              | some (os, cs5) => finish os cs5
            | _ => finish 0 cs3
    else none

def isLeapYear (y : Nat) : Bool :=
  y % 4 = 0 && (y % 100 ≠ 0 || y % 400 = 0)

def daysInMonth (y m : Nat) : Nat :=
  if m = 2 then (if isLeapYear y then 29 else 28)
  else if m = 4 ∨ m = 6 ∨ m = 9 ∨ m = 11 then 30
  else 31

/-- A parsed `datetime`: civil fields plus an optional UTC offset
(`None` means a naive datetime). -/
structure PyDateTime where
  year : Nat
  month : Nat
  day : Nat
  hour : Nat
  minute : Nat
  second : Nat
  usec : Nat
  tzSeconds : Option Int
deriving Repr, DecidableEq

/-- `datetime.fromisoformat(s)`. -/
def parseIso (s : String) : Option PyDateTime := do
  let (y, cs) ← readNDigits 4 s.data
  let cs ← expectChar '-' cs
  let (mo, cs) ← readNDigits 2 cs
  let cs ← expectChar '-' cs
  let (d, cs) ← readNDigits 2 cs
  let (tm, cs) ←
    match cs with
    | [] => some ((0, 0, 0, 0), ([] : List Char))
    | _ :: rest => parseTimePart rest
  let (tz, cs) ← parseTzOffset cs
  let (h, mi, sec, us) := tm
  if cs = [] ∧ 1 ≤ mo ∧ mo ≤ 12 ∧ 1 ≤ d ∧ d ≤ daysInMonth y mo ∧ 1 ≤ y ∧
      h ≤ 23 ∧ mi ≤ 59 ∧ sec ≤ 59 then
    some ⟨y, mo, d, h, mi, sec, us, tz⟩
  else none

/-- `datetime.fromisoformat(s.replace("Z", "+00:00"))`, the idiom used by
both `clean_workitems.py` and `get_last_date.py`. -/
def parsePyIso (s : String) : Option PyDateTime :=
  parseIso (pyReplace s "Z" "+00:00")

/-- Days since 1970-01-01 of a civil date (standard civil-calendar
conversion). -/
def daysFromCivil (y m d : Nat) : Int :=
  let yi : Int := (y : Int) - (if m ≤ 2 then 1 else 0)
  let era : Int := yi.fdiv 400
  let yoe : Nat := (yi - era * 400).toNat
  let mshift : Nat := if m > 2 then m - 3 else m + 9
  let doy : Nat := (153 * mshift + 2) / 5 + d - 1
  let doe : Nat := yoe * 365 + yoe / 4 - yoe / 100 + doy
  era * 146097 + (doe : Int) - 719468

/-- Civil date of a day count since 1970-01-01. -/
def civilFromDays (z0 : Int) : Int × Nat × Nat :=
  let z := z0 + 719468
  let era : Int := z.fdiv 146097
  let doe : Nat := (z - era * 146097).toNat
  let yoe : Nat := (doe - doe / 1460 + doe / 36524 - doe / 146096) / 365
  let y : Int := (yoe : Int) + era * 400
  let doy : Nat := doe - (365 * yoe + yoe / 4 - yoe / 100)
  let mp : Nat := (5 * doy + 2) / 153
  let d : Nat := doy - (153 * mp + 2) / 5 + 1
  let m : Nat := if mp < 10 then mp + 3 else mp - 9
  (if m ≤ 2 then y + 1 else y, m, d)

/-- A UTC-normalized instant with civil fields. -/
structure UtcTime where
  year : Nat
  month : Nat
  day : Nat
  hour : Nat
  minute : Nat
  second : Nat
  usec : Nat
deriving Repr, DecidableEq

/-- The instant as microseconds since the epoch; `datetime` comparison of
UTC-aware values is comparison of this quantity. -/
def UtcTime.micros (t : UtcTime) : Int :=
  daysFromCivil t.year t.month t.day * 86400000000
    + ((t.hour * 3600 + t.minute * 60 + t.second : Nat) : Int) * 1000000
    + (t.usec : Int)

/-- `dt.astimezone(timezone.utc)`: an aware datetime is shifted by its own
offset; a naive one is interpreted in the process-local timezone, whose
fixed UTC offset (in seconds) is the `localOffSec` parameter.  Results
outside `datetime`'s year range 1..9999 raise `OverflowError`, modelled as
`none`. -/
def toUtcChecked (dt : PyDateTime) (localOffSec : Int) : Option UtcTime :=
  let off := dt.tzSeconds.getD localOffSec
  let secs : Int := daysFromCivil dt.year dt.month dt.day * 86400
      + ((dt.hour * 3600 + dt.minute * 60 + dt.second : Nat) : Int) - off
  let days := secs.fdiv 86400
  let rem : Nat := (secs - days * 86400).toNat
  match civilFromDays days with
  | (y, m, d) =>
    if 1 ≤ y ∧ y ≤ 9999 then
      some ⟨y.toNat, m, d, rem / 3600, rem % 3600 / 60, rem % 60, dt.usec⟩
    else none

/-- Lower-casing of ASCII letters (`strptime` matches month names
case-insensitively). -/
def asciiLower (c : Char) : Char :=
  if 65 ≤ c.toNat ∧ c.toNat ≤ 90 then Char.ofNat (c.toNat + 32) else c

/-- `%B`: the full month name, 1-based. -/
def monthNum (tok : List Char) : Option Nat :=
  let l := tok.map asciiLower
  if l = "january".data then some 1
  else if l = "february".data then some 2
  else if l = "march".data then some 3
  else if l = "april".data then some 4
  else if l = "may".data then some 5
  else if l = "june".data then some 6
  else if l = "july".data then some 7
  else if l = "august".data then some 8
  else if l = "september".data then some 9
  else if l = "october".data then some 10
  else if l = "november".data then some 11
  else if l = "december".data then some 12
  else none

def allDigits (cs : List Char) : Bool := cs.all Char.isDigit

/-- `strptime` anchors at both ends: no leading or trailing whitespace. -/
def noEdgeWs (cs : List Char) : Bool :=
  match cs, cs.getLast? with
  | c :: _, some e => !isPyWs c && !isPyWs e
  | _, _ => false

/-- The fallback branch of `parse_mixed_date`: strip commas, `" at "` and
`" UTC"`, then `strptime(cleaned, "%B %d %Y %H:%M")`, validated the way
`datetime` construction validates, yielding a UTC instant
(`replace(tzinfo=timezone.utc)`). -/
def parseFallback (v : String) : Option UtcTime :=
  let cleaned := pyReplace (pyReplace (pyReplace v "," "") " at " " ") " UTC" ""
  let cs := cleaned.data
  if noEdgeWs cs then
    match wordsCh cs with
    | [b, dd, yy, hm] =>
      match monthNum b with
      | none => none
      | some mo =>
        if allDigits dd ∧ 1 ≤ dd.length ∧ dd.length ≤ 2
            ∧ allDigits yy ∧ yy.length = 4 then
          let d := digitsVal dd
          let y := digitsVal yy
          match splitCharAux ':' hm [] with
          | [hh, mm] =>
            if allDigits hh.data ∧ 1 ≤ hh.data.length ∧ hh.data.length ≤ 2
                ∧ allDigits mm.data ∧ 1 ≤ mm.data.length ∧ mm.data.length ≤ 2 then
              let h := digitsVal hh.data
              let mi := digitsVal mm.data
              if 1 ≤ d ∧ d ≤ 31 ∧ h ≤ 23 ∧ mi ≤ 59 ∧ 1 ≤ y ∧ d ≤ daysInMonth y mo then
                some ⟨y, mo, d, h, mi, 0, 0⟩
              else none
            else none
          | _ => none
        else none
    | _ => none
  else none

/-- `parse_mixed_date(value)` from `get_last_date.py`: empty values parse
to `None`; otherwise strip, try ISO-8601 (with `Z` replaced by `+00:00`)
normalized to UTC, then the human-readable fallback; `None` when both
fail. -/
def parse_mixed_date (localOffSec : Int) (value : String) : Option UtcTime :=
  if value = "" then none
  else
    let v := pyStrip value
    match parseIso (pyReplace v "Z" "+00:00") with
    | some dt =>
      match toUtcChecked dt localOffSec with
      | some t => some t
      | none => parseFallback v
    | none => parseFallback v

def monthName (m : Nat) : String :=
  ["January", "February", "March", "April", "May", "June", "July",
   "August", "September", "October", "November", "December"].getD (m - 1) ""

/-- Zero-padded two-digit rendering (`%d`, `%H`, `%M`). -/
def pad2 (n : Nat) : String := if n < 10 then "0" ++ natToStr n else natToStr n

/-- Zero-padding to a fixed width (used by `isoformat`). -/
def padToWidth (w : Nat) (n : Nat) : String :=
  let ds := natDigits n
  ⟨List.replicate (w - ds.length) '0' ++ ds⟩

/-- `dt.strftime("%B %d, %Y at %H:%M UTC")` — formats the parsed civil
fields directly (the source does not normalize to UTC here). -/
def formatDate (dt : PyDateTime) : String :=
  monthName dt.month ++ " " ++ pad2 dt.day ++ ", " ++ natToStr dt.year
    ++ " at " ++ pad2 dt.hour ++ ":" ++ pad2 dt.minute ++ " UTC"

/-- `latest.isoformat().replace("+00:00", "Z")` for a UTC-aware value. -/
def isoZ (t : UtcTime) : String :=
  padToWidth 4 t.year ++ "-" ++ pad2 t.month ++ "-" ++ pad2 t.day ++ "T"
    ++ pad2 t.hour ++ ":" ++ pad2 t.minute ++ ":" ++ pad2 t.second
    ++ (if t.usec = 0 then "" else "." ++ padToWidth 6 t.usec) ++ "Z"

/-! ## Sync Watermark Tracker (`get_last_date.py`, `get_latest_modified_date`)

The sqlite scan
`SELECT string_value FROM embedding_metadata WHERE key IN (...)` is an
external collaborator; its result is the `values` argument. -/

/-- The `for (value,) in rows` loop keeping the maximum parsed timestamp. -/
def latestFold (off : Int) (values : List String) (acc : Option UtcTime) :
    Option UtcTime :=
  values.foldl
    (fun latest v =>
      match parse_mixed_date off v with
      | some dt =>
        match latest with
        | none => some dt
        | some l => if l.micros < dt.micros then some dt else some l
      | none => latest)
    acc

/-- `get_latest_modified_date()` from `get_last_date.py`, returning the
string it prints. -/
def get_latest_modified_date (off : Int) (values : List String) : String :=
  match latestFold off values none with
  | some l => isoZ l
  | none => "1970-01-01T00:00:00Z"

/-! ## Text Normalizer (`clean_workitems.py`, `clean_text`, lines 89-153)

`clean_text` is a fixed pipeline.  The stages implemented by external
machinery — `BeautifulSoup(...).get_text(separator=" ")` and the `re.sub`
regex substitutions — are modelled as opaque `String → String` parameters
grouped by position relative to the table-flattening stage, which is
modelled concretely (as is the final whitespace normalization,
`re.sub(r"\s+", " ", text).strip()`).  Every theorem below holds for all
instantiations of these parameters. -/

structure TextDeps where
  /-- Lines 95-105: HTML-to-text extraction, mention resolution plus `@`
  stripping, and image-directive replacement. -/
  preTable : String → String
  /-- Lines 111-148: link/url replacement, horizontal rules, LaTeX
  delimiters and symbols, inline-code markers, brace and Markdown-sigil
  removal. -/
  postTable : String → String

/-- The identity instantiation of the regex stages (their behaviour on
inputs that contain none of the patterns). -/
def idDeps : TextDeps := ⟨id, id⟩

/-- `re.sub(r"\s+", " ", text).strip()` — collapse whitespace runs and
trim, i.e. single-space-join the whitespace words. -/
def normalizeWs (s : String) : String := spaceJoin (pyWords s)

/-- `clean_text(text)` from `clean_workitems.py`: empty (falsy) input
short-circuits to `""`; otherwise the staged pipeline runs ending in
whitespace normalization. -/
def clean_text (deps : TextDeps) (text : String) : String :=
  if text = "" then ""
  else normalizeWs (deps.postTable (markdown_table_to_sentences (deps.preTable text)))

/-! ## Data model (`clean_workitems.py`, `prepare_embedding_text`)

Input JSON objects are modelled by structures carrying exactly the fields
the source reads.  Fields read with a default (`workitem.get(k, "")`) are
modelled pre-defaulted; fields read as `workitem.get(k)` (default `None`)
are `Option`-typed, `none` meaning absent-or-null. -/

/-- A scalar metadata value as stored in the output JSON / vector store:
a string, a number, or Python `None`. -/
inductive MValue where
  | str (s : String)
  | int (n : Int)
  | null
deriving Repr, DecidableEq

/-- `workitem.get(k)`-style access for `type` and `state`. -/
def optStr : Option String → MValue
  | none => .null
  | some s => .str s

/-- `workitem.get(k) or ""` — `None` (and the falsy `""`) become `""`. -/
def orEmpty : Option String → String
  | none => ""
  | some s => s

/-- `workitem.get("story_points") or 0`. -/
def orZero : Option Int → Int
  | none => 0
  | some n => n

/-- One element of `workitem["comments"]`: the fields read by the source.
`createdBy` is `c.get("createdBy", {}).get("displayName", "Unknown")`
pre-flattened to the optional display name. -/
structure RawComment where
  createdBy : Option String
  createdDate : String
  modifiedDate : String
  text : String
deriving Repr, DecidableEq

/-- A work item as consumed by `prepare_embedding_text`. -/
structure WorkItem where
  id : Option Int
  title : String
  description : String
  acceptance_criteria : String
  wtype : Option String
  state : Option String
  assignedTo : Option String
  story_points : Option Int
  tags : Option String
  createdDate : String
  changedDate : String
  comments : List RawComment
deriving Repr, DecidableEq

/-- A `chunk_index` value: Python stores an `int` for main chunks and a
string `"c{i}_{j}"` for comment chunks. -/
inductive ChunkIndex where
  | int (n : Nat)
  | str (s : String)
deriving Repr, DecidableEq

/-- One output record of `prepare_embedding_text`. -/
structure ChunkRec where
  id : Option Int
  chunk_index : ChunkIndex
  embedding_text : String
  metadata : List (String × MValue)
deriving Repr, DecidableEq

/-- `enumerate` from a given start. -/
def enumFrom : Nat → List α → List (Nat × α)
  | _, [] => []
  | n, a :: as => (n, a) :: enumFrom (n + 1) as

/-- Python `enumerate(l)`. -/
def pyEnum (l : List α) : List (Nat × α) := enumFrom 0 l

/-- Sequential, short-circuiting effectful map — the semantics of a
Python `for` loop appending per-iteration results, where an exception
aborts the whole call. -/
def mapME (f : α → Except ε β) : List α → Except ε (List β)
  | [] => .ok []
  | a :: as =>
    match f a with
    | .error e => .error e
    | .ok b =>
      match mapME f as with
      | .error e => .error e
      | .ok bs => .ok (b :: bs)

def MAX_CHUNK_WORDS : Nat := 500
def COMMENT_CHUNK_WORDS : Nat := 200

/-- The f-string `f"c{idx}_{jdx}"`. -/
def mkIdx (i j : Nat) : String := ⟨'c' :: (natDigits i ++ '_' :: natDigits j)⟩

/-- The metadata dict attached to every main chunk (source lines 197-209). -/
def mainMeta (wi : WorkItem) (title description acceptance : String) :
    List (String × MValue) :=
  [("title", .str title),
   ("section", .str "main"),
   ("description", .str description),
   ("acceptance_criteria", .str acceptance),
   ("type", optStr wi.wtype),
   ("state", optStr wi.state),
   ("assignedTo", .str (orEmpty wi.assignedTo)),
   ("storyPoints", .int (orZero wi.story_points)),
   ("tags", .str (orEmpty wi.tags)),
   ("createdDate", .str wi.createdDate),
   ("changedDate", .str wi.changedDate)]

/-- The metadata dict attached to every comment chunk (source lines 233-246). -/
def commentMeta (wi : WorkItem) (title description acceptance author date modDate : String) :
    List (String × MValue) :=
  [("title", .str title),
   ("section", .str "comment"),
   ("description", .str description),
   ("acceptance_criteria", .str acceptance),
   ("author", .str author),
   ("createdDate", .str date),
   ("modifiedDate", .str modDate),
   ("type", optStr wi.wtype),
   ("state", optStr wi.state),
   ("assignedTo", .str (orEmpty wi.assignedTo)),
   ("storyPoints", .int (orZero wi.story_points)),
   ("tags", .str (orEmpty wi.tags))]

/-- The `=== MAIN WORK ITEM BODY ===` section (source lines 171-210):
non-empty parts joined by `"\n"`, chunked at the coarse size. -/
def mainRecs (wi : WorkItem) (title description acceptance : String) :
    List ChunkRec :=
  let parts : List String :=
    (if title = "" then [] else [title])
      ++ (if description = "" then [] else [description])
      ++ (if acceptance = "" then [] else [acceptance])
  let full_text := newlineJoin parts
  (pyEnum (chunk_text full_text MAX_CHUNK_WORDS)).map (fun p =>
    { id := wi.id,
      chunk_index := .int p.1,
      embedding_text := p.2,
      metadata := mainMeta wi title description acceptance })

/-- One iteration of the `=== COMMENTS ===` loop (source lines 214-247):
parse both timestamps (`datetime.fromisoformat` raising `ValueError` on
failure is modelled as `Except.error`), normalize the text, skip the
comment if empty, otherwise chunk at the fine size. -/
def commentRecs (deps : TextDeps) (wi : WorkItem)
    (title description acceptance : String) (idx : Nat) (c : RawComment) :
    Except String (List ChunkRec) :=
  let author := c.createdBy.getD "Unknown"
  match parsePyIso c.createdDate with
  | none => .error ("Invalid isoformat string: " ++ c.createdDate)
  | some dt =>
    let date := formatDate dt
    match parsePyIso c.modifiedDate with
    | none => .error ("Invalid isoformat string: " ++ c.modifiedDate)
    | some dt2 =>
      let modDate := formatDate dt2
      let text := clean_text deps c.text
      if text = "" then .ok []
      else .ok ((pyEnum (chunk_text text COMMENT_CHUNK_WORDS)).map (fun p =>
        { id := wi.id,
          chunk_index := .str (mkIdx idx p.1),
          embedding_text := author ++ " commented on (" ++ date ++ "): " ++ p.2,
          metadata := commentMeta wi title description acceptance author date modDate }))

/-- `prepare_embedding_text(workitem)` from `clean_workitems.py`. -/
def prepare_embedding_text (deps : TextDeps) (wi : WorkItem) :
    Except String (List ChunkRec) :=
  let title := wi.title
  let description := clean_text deps wi.description
  let acceptance := clean_text deps wi.acceptance_criteria
  let mains := mainRecs wi title description acceptance
  match mapME (fun p => commentRecs deps wi title description acceptance p.1 p.2)
      (pyEnum wi.comments) with
  | .error e => .error e
  | .ok ls => .ok (mains ++ ls.flatten)

/-! ## Store Reconciler (`upload_chromadb.py`, `main`, lines 12-48)

The Chroma collection is modelled as a list of entries; `collection.get`,
`collection.delete` and `collection.add` are modelled on it.  Python
details that decide the claims are modelled explicitly:
* `grouped` is a `defaultdict(list)` keyed by `rec["id"]`, iterated in
  key-insertion order;
* the list comprehension `[item["id"] for item in collection.get(...)["ids"]]`
  indexes a *string* with a string key — a `TypeError`, modelled as `none`
  — which the surrounding `try/except` swallows;
* `collection.add(...)` inside the group loop uses the variable `rec`,
  which after the preceding `for rec in records` loop is bound to the
  *last* record of the whole input, not to the group's records `recs`;
* `collection.add` with an already-present id is rejected by Chroma
  (duplicate ID error), modelled as `Except.error`. -/

structure StoreEntry where
  eid : String
  document : String
  metadata : List (String × MValue)
deriving Repr, DecidableEq

/-- First value stored under key `k` in a metadata mapping. -/
def metaLookup (m : List (String × MValue)) (k : String) : Option MValue :=
  (m.find? (fun p => p.1 = k)).map (fun p => p.2)

/-- `str(x)` for a record id (`None` prints as `"None"`). -/
def idStr : Option Int → String
  | none => "None"
  | some n => intToStr n

/-- `str(chunk_index)`. -/
def ciStr : ChunkIndex → String
  | .int n => natToStr n
  | .str s => s

/-- The entry id `f"{rec['id']}_{rec['chunk_index']}"`. -/
def recDocId (r : ChunkRec) : String := idStr r.id ++ "_" ++ ciStr r.chunk_index

/-- The stored entry built from a record by `collection.add`. -/
def mkEntry (r : ChunkRec) : StoreEntry :=
  ⟨recDocId r, r.embedding_text, r.metadata⟩

/-- `collection.get(..., where={"id": wid})["ids"]`: ids of entries whose
metadata holds `wid` under the key `"id"`. -/
def collectionGetIds (store : List StoreEntry) (wid : MValue) : List String :=
  (store.filter (fun e => metaLookup e.metadata "id" = some wid)).map (fun e => e.eid)

/-- Python `item["id"]` where `item` is a string: always a `TypeError`. -/
def pyStrGetItem (_item : String) (_key : String) : Option String := none

/-- `collection.delete(ids=existing_ids)`. -/
def deleteIds (store : List StoreEntry) (ids : List String) : List StoreEntry :=
  store.filter (fun e => ¬ ids.contains e.eid)

/-- The `try: ... except Exception: pass` block of `main`: collect ids via
the (faulty) comprehension; on the swallowed exception the store is left
untouched; otherwise delete when any ids were found. -/
def tryDeleteExisting (store : List StoreEntry) (wid : MValue) : List StoreEntry :=
  match (collectionGetIds store wid).mapM (fun s => pyStrGetItem s "id") with
  | none => store
  | some existing => if existing.isEmpty then store else deleteIds store existing

/-- `collection.add`: rejects an id already present. -/
def collectionAdd (store : List StoreEntry) (e : StoreEntry) :
    Except String (List StoreEntry) :=
  if store.any (fun x => x.eid = e.eid) then .error ("duplicate id " ++ e.eid)
  else .ok (store ++ [e])

/-- The distinct values of `rec["id"]` in first-occurrence order — the
iteration order of `grouped.items()`. -/
def groupKeys (records : List ChunkRec) : List (Option Int) :=
  records.foldl (fun ks r => if r.id ∈ ks then ks else ks ++ [r.id]) []

/-- The work-item id as it appears in the `where` filter. -/
def widVal : Option Int → MValue
  | none => .null
  | some n => .int n

/-- `main()` of `upload_chromadb.py`, as a function of the loaded records
and the collection state.  When `records` is empty `grouped` is empty and
the loop body (which would reference the unbound `rec`) never runs. -/
def upload_chromadb_main (records : List ChunkRec) (store : List StoreEntry) :
    Except String (List StoreEntry) :=
  match records.getLast? with
  | none => .ok store
  | some lastRec =>
    (groupKeys records).foldlM
      (fun st wid => collectionAdd (tryDeleteExisting st (widVal wid)) (mkEntry lastRec))
      store

/-! ## Supporting lemmas: decimal digits, `mkIdx` injectivity -/

theorem charOfNat_digit_toNat (d : Nat) (h : d < 10) :
    (Char.ofNat (48 + d)).toNat = 48 + d := by
  interval_cases d <;> decide

theorem natDigitsF_digit_bound (fuel : Nat) :
    ∀ n, n < fuel → ∀ c ∈ natDigitsF fuel n, 48 ≤ c.toNat ∧ c.toNat ≤ 57 := by
  induction fuel with
  | zero => intro n h; omega
  | succ f ih =>
    intro n h c hc
    simp only [natDigitsF] at hc
    by_cases h10 : n < 10
    · rw [if_pos h10] at hc
      simp only [List.mem_singleton] at hc
      subst hc
      rw [charOfNat_digit_toNat n h10]
      omega
    · rw [if_neg h10] at hc
      rcases List.mem_append.mp hc with hc' | hc'
      · exact ih (n / 10) (by omega) c hc'
      · simp only [List.mem_singleton] at hc'
        subst hc'
        rw [charOfNat_digit_toNat (n % 10) (Nat.mod_lt n (by omega))]
        have := Nat.mod_lt n (show 0 < 10 by omega)
        omega

theorem natDigits_digit_bound (n : Nat) :
    ∀ c ∈ natDigits n, 48 ≤ c.toNat ∧ c.toNat ≤ 57 :=
  natDigitsF_digit_bound (n + 1) n (by omega)

theorem natDigits_ne_underscore (n : Nat) : ∀ c ∈ natDigits n, c ≠ '_' := by
  intro c hc heq
  have := natDigits_digit_bound n c hc
  subst heq
  simp at this

theorem digitsVal_append_one (xs : List Char) (c : Char) :
    digitsVal (xs ++ [c]) = 10 * digitsVal xs + (c.toNat - 48) := by
  simp [digitsVal, List.foldl_append]

theorem digitsVal_natDigitsF (fuel : Nat) :
    ∀ n, n < fuel → digitsVal (natDigitsF fuel n) = n := by
  induction fuel with
  | zero => intro n h; omega
  | succ f ih =>
    intro n h
    simp only [natDigitsF]
    by_cases h10 : n < 10
    · rw [if_pos h10]
      simp [digitsVal, charOfNat_digit_toNat n h10]
    · rw [if_neg h10, digitsVal_append_one,
        ih (n / 10) (by omega),
        charOfNat_digit_toNat (n % 10) (Nat.mod_lt n (by omega))]
      omega

theorem digitsVal_natDigits (n : Nat) : digitsVal (natDigits n) = n :=
  digitsVal_natDigitsF (n + 1) n (by omega)

theorem natDigits_inj {a b : Nat} (h : natDigits a = natDigits b) : a = b := by
  have := digitsVal_natDigits a
  rw [h, digitsVal_natDigits] at this
  omega

theorem append_sep_inj (sep : Char) :
    ∀ (a a' b b' : List Char), (∀ c ∈ a, c ≠ sep) → (∀ c ∈ a', c ≠ sep) →
      a ++ sep :: b = a' ++ sep :: b' → a = a' ∧ b = b' := by
  intro a
  induction a with
  | nil =>
    intro a' b b' _ ha' h
    cases a' with
    | nil => simpa using h
    | cons y ys =>
      simp only [List.nil_append, List.cons_append, List.cons.injEq] at h
      exact absurd h.1.symm (ha' y (by simp))
  | cons x xs ih =>
    intro a' b b' ha ha' h
    cases a' with
    | nil =>
      simp only [List.cons_append, List.nil_append, List.cons.injEq] at h
      exact absurd h.1 (ha x (by simp))
    | cons y ys =>
      simp only [List.cons_append, List.cons.injEq] at h
      obtain ⟨rfl, h2⟩ := h
      have := ih ys b b' (fun c hc => ha c (by simp [hc])) (fun c hc => ha' c (by simp [hc])) h2
      exact ⟨by rw [this.1], this.2⟩

theorem mkIdx_inj {i j i' j' : Nat} (h : mkIdx i j = mkIdx i' j') :
    i = i' ∧ j = j' := by
  have hdata : 'c' :: (natDigits i ++ '_' :: natDigits j)
      = 'c' :: (natDigits i' ++ '_' :: natDigits j') := congrArg String.data h
  simp only [List.cons.injEq, true_and] at hdata
  have := append_sep_inj '_' (natDigits i) (natDigits i') (natDigits j) (natDigits j')
    (natDigits_ne_underscore i) (natDigits_ne_underscore i') hdata
  exact ⟨natDigits_inj this.1, natDigits_inj this.2⟩

/-! ## Supporting lemmas: `enumFrom`, `mapME` -/

theorem enumFrom_fst_ge : ∀ (l : List α) (k : Nat), ∀ p ∈ enumFrom k l, k ≤ p.1 := by
  intro l
  induction l with
  | nil => intro k p hp; simp [enumFrom] at hp
  | cons a as ih =>
    intro k p hp
    rcases List.mem_cons.mp hp with rfl | hp'
    · exact le_rfl
    · exact Nat.le_of_succ_le (ih (k + 1) p hp')

theorem enumFrom_mem_of_mem : ∀ (l : List α) (k : Nat) (a : α), a ∈ l →
    ∃ i, (i, a) ∈ enumFrom k l := by
  intro l
  induction l with
  | nil => intro k a ha; simp at ha
  | cons x xs ih =>
    intro k a ha
    rcases List.mem_cons.mp ha with rfl | ha'
    · exact ⟨k, by simp [enumFrom]⟩
    · obtain ⟨i, hi⟩ := ih (k + 1) a ha'
      exact ⟨i, by simp [enumFrom, hi]⟩

theorem enumFrom_functional : ∀ (l : List α) (k : Nat) (i : Nat) (a b : α),
    (i, a) ∈ enumFrom k l → (i, b) ∈ enumFrom k l → a = b := by
  intro l
  induction l with
  | nil => intro k i a b ha; simp [enumFrom] at ha
  | cons x xs ih =>
    intro k i a b ha hb
    rcases List.mem_cons.mp ha with h1 | h1 <;>
      rcases List.mem_cons.mp hb with h2 | h2
    · rw [Prod.mk.injEq] at h1 h2
      rw [h1.2, h2.2]
    · rw [Prod.mk.injEq] at h1
      have := enumFrom_fst_ge xs (k + 1) (i, b) h2
      omega
    · rw [Prod.mk.injEq] at h2
      have := enumFrom_fst_ge xs (k + 1) (i, a) h1
      omega
    · exact ih (k + 1) i a b h1 h2

theorem enumFrom_map_fst : ∀ (l : List α) (k : Nat),
    (enumFrom k l).map Prod.fst = List.range' k l.length := by
  intro l
  induction l with
  | nil => intro k; simp [enumFrom]
  | cons a as ih =>
    intro k
    simp [enumFrom, List.range'_succ, ih (k + 1)]

theorem pyEnum_map_fst (l : List α) : (pyEnum l).map Prod.fst = List.range l.length := by
  rw [pyEnum, enumFrom_map_fst, List.range_eq_range']

theorem mapME_error_of_mem (f : α → Except ε β) :
    ∀ (l : List α) (a : α), a ∈ l → (∀ b, f a ≠ .ok b) →
      ∃ e, mapME f l = .error e := by
  intro l
  induction l with
  | nil => intro a ha; simp at ha
  | cons x xs ih =>
    intro a ha hbad
    cases hfx : f x with
    | error e => exact ⟨e, by simp [mapME, hfx]⟩
    | ok b =>
      rcases List.mem_cons.mp ha with rfl | ha'
      · exact absurd hfx (hbad b)
      · obtain ⟨e, he⟩ := ih a ha' hbad
        exact ⟨e, by simp [mapME, hfx, he]⟩

/-! ## Supporting lemmas: record-builder structure -/

theorem strIdx_injective (idx : Nat) :
    Function.Injective (fun n => ChunkIndex.str (mkIdx idx n)) := by
  intro x y hxy
  simp only [ChunkIndex.str.injEq] at hxy
  exact (mkIdx_inj hxy).2

theorem pyEnum_map_recs {β : Type} (l : List β) (g : Nat × β → ChunkRec)
    (f : Nat → ChunkIndex) (hg : ∀ p, (g p).chunk_index = f p.1) :
    ((pyEnum l).map g).map (fun r => r.chunk_index) = (List.range l.length).map f := by
  simp only [List.map_map]
  have h : (pyEnum l).map ((fun r : ChunkRec => r.chunk_index) ∘ g)
      = (pyEnum l).map (f ∘ Prod.fst) :=
    List.map_congr_left (fun p _ => hg p)
  rw [h, ← List.map_map, pyEnum_map_fst]

theorem mainRecs_map_ci (wi : WorkItem) (t d a : String) :
    ∃ M, (mainRecs wi t d a).map (fun r => r.chunk_index)
      = (List.range M).map ChunkIndex.int := by
  simp only [mainRecs]
  exact ⟨_, pyEnum_map_recs _ _ ChunkIndex.int (fun p => rfl)⟩

theorem mainRecs_mem_spec (wi : WorkItem) (t d a : String) :
    ∀ r ∈ mainRecs wi t d a,
      (∃ n, r.chunk_index = .int n) ∧ r.id = wi.id
        ∧ r.metadata = mainMeta wi t d a := by
  intro r hr
  simp only [mainRecs, List.mem_map] at hr
  obtain ⟨p, _, rfl⟩ := hr
  exact ⟨⟨p.1, rfl⟩, rfl, rfl⟩

theorem mainRecs_ci_nodup (wi : WorkItem) (t d a : String) :
    ((mainRecs wi t d a).map (fun r => r.chunk_index)).Nodup := by
  obtain ⟨M, hM⟩ := mainRecs_map_ci wi t d a
  rw [hM]
  exact (List.nodup_range M).map (fun x y h => by simpa using h)

theorem commentRecs_ok_spec (deps : TextDeps) (wi : WorkItem)
    (t d a : String) (idx : Nat) (c : RawComment) (rs : List ChunkRec)
    (h : commentRecs deps wi t d a idx c = .ok rs) :
    (rs.map (fun r => r.chunk_index)).Nodup
    ∧ ∀ r ∈ rs, (∃ j, r.chunk_index = .str (mkIdx idx j)) ∧ r.id = wi.id
        ∧ ∃ au da mo, r.metadata = commentMeta wi t d a au da mo := by
  cases h1 : parsePyIso c.createdDate with
  | none => simp [commentRecs, h1] at h
  | some dt =>
    cases h2 : parsePyIso c.modifiedDate with
    | none => simp [commentRecs, h1, h2] at h
    | some dt2 =>
      simp only [commentRecs, h1, h2] at h
      by_cases hte : clean_text deps c.text = ""
      · rw [if_pos hte] at h
        simp only [Except.ok.injEq] at h
        subst h
        simp
      · rw [if_neg hte] at h
        simp only [Except.ok.injEq] at h
        subst h
        constructor
        · rw [pyEnum_map_recs _ _ (fun n => ChunkIndex.str (mkIdx idx n)) (fun p => rfl)]
          exact (List.nodup_range _).map (strIdx_injective idx)
        · intro r hr
          simp only [List.mem_map] at hr
          obtain ⟨p, _, rfl⟩ := hr
          exact ⟨⟨p.1, rfl⟩, rfl, _, _, _, rfl⟩

/-- Everything the claims need about the comment phase: over any suffix
`enumFrom k cs` of the enumerated comments, a successful run produces
per-comment record lists whose flattened chunk indices are distinct, each
record carrying the work item's id, comment-shaped metadata, and an index
`c{i}_{j}` traceable to its source comment. -/
theorem comments_spec (deps : TextDeps) (wi : WorkItem) (t d a : String) :
    ∀ (cs : List RawComment) (k : Nat) (ys : List (List ChunkRec)),
      mapME (fun p => commentRecs deps wi t d a p.1 p.2) (enumFrom k cs) = .ok ys →
      ((ys.flatten.map (fun r => r.chunk_index)).Nodup
       ∧ ∀ r ∈ ys.flatten,
          (∃ i j c, k ≤ i ∧ (i, c) ∈ enumFrom k cs
            ∧ r.chunk_index = .str (mkIdx i j)
            ∧ ∃ rs, commentRecs deps wi t d a i c = .ok rs ∧ r ∈ rs)
          ∧ r.id = wi.id
          ∧ ∃ au da mo, r.metadata = commentMeta wi t d a au da mo) := by
  intro cs
  induction cs with
  | nil =>
    intro k ys h
    simp only [enumFrom, mapME, Except.ok.injEq] at h
    subst h
    simp
  | cons c cs' ih =>
    intro k ys h
    cases hfc : commentRecs deps wi t d a k c with
    | error e =>
      simp only [enumFrom, mapME, hfc] at h
      exact Except.noConfusion h
    | ok rs =>
      cases hrest : mapME (fun p => commentRecs deps wi t d a p.1 p.2) (enumFrom (k + 1) cs') with
      | error e =>
        simp only [enumFrom, mapME, hfc, hrest] at h
        exact Except.noConfusion h
      | ok ys' =>
        simp only [enumFrom, mapME, hfc, hrest, Except.ok.injEq] at h
        subst h
        obtain ⟨hnodup_rs, hmem_rs⟩ := commentRecs_ok_spec deps wi t d a k c rs hfc
        obtain ⟨hnodup_ys', hmem_ys'⟩ := ih (k + 1) ys' hrest
        constructor
        · rw [List.flatten_cons, List.map_append]
          refine hnodup_rs.append hnodup_ys' ?_
          intro x hx hx'
          rcases List.mem_map.mp hx with ⟨r, hr, rfl⟩
          rcases List.mem_map.mp hx' with ⟨r', hr', hre⟩
          obtain ⟨⟨j, hjx⟩, _, _⟩ := hmem_rs r hr
          obtain ⟨⟨i', j', c', hi', _, hjx', _⟩, _, _⟩ := hmem_ys' r' hr'
          rw [hjx] at hre
          rw [hjx'] at hre
          have := (mkIdx_inj (by simpa using hre.symm)).1
          omega
        · intro r hr
          rw [List.flatten_cons] at hr
          rcases List.mem_append.mp hr with hr' | hr'
          · obtain ⟨⟨j, hj⟩, hid, hmeta⟩ := hmem_rs r hr'
            exact ⟨⟨k, j, c, le_rfl, List.mem_cons_self _ _, hj, rs, hfc, hr'⟩, hid, hmeta⟩
          · obtain ⟨⟨i, j, c', hi, hmem, hj, hrs⟩, hid, hmeta⟩ := hmem_ys' r hr'
            exact ⟨⟨i, j, c', by omega, List.mem_cons_of_mem _ hmem, hj, hrs⟩, hid, hmeta⟩

theorem prepare_ok_cases (deps : TextDeps) (wi : WorkItem) (recs : List ChunkRec)
    (h : prepare_embedding_text deps wi = .ok recs) :
    ∃ ls, mapME (fun p => commentRecs deps wi wi.title (clean_text deps wi.description)
          (clean_text deps wi.acceptance_criteria) p.1 p.2) (pyEnum wi.comments) = .ok ls
      ∧ recs = mainRecs wi wi.title (clean_text deps wi.description)
          (clean_text deps wi.acceptance_criteria) ++ ls.flatten := by
  cases hm : mapME (fun p => commentRecs deps wi wi.title (clean_text deps wi.description)
      (clean_text deps wi.acceptance_criteria) p.1 p.2) (pyEnum wi.comments) with
  | error e =>
    simp only [prepare_embedding_text, hm] at h
    exact Except.noConfusion h
  | ok ls =>
    simp only [prepare_embedding_text, hm, Except.ok.injEq] at h
    exact ⟨ls, rfl, h.symm⟩

theorem recs_id_eq (deps : TextDeps) (wi : WorkItem) (recs : List ChunkRec)
    (h : prepare_embedding_text deps wi = .ok recs) :
    ∀ r ∈ recs, r.id = wi.id := by
  obtain ⟨ls, hm, rfl⟩ := prepare_ok_cases deps wi recs h
  intro r hr
  rcases List.mem_append.mp hr with hr' | hr'
  · exact (mainRecs_mem_spec wi _ _ _ r hr').2.1
  · exact ((comments_spec deps wi _ _ _ wi.comments 0 ls hm).2 r hr').2.1

theorem mainMeta_val_spec (wi : WorkItem) (t d a : String) :
    ∀ kv ∈ mainMeta wi t d a,
      kv = ("type", optStr wi.wtype) ∨ kv = ("state", optStr wi.state)
      ∨ (∃ s, kv.2 = MValue.str s) ∨ (∃ n, kv.2 = MValue.int n) := by
  intro kv hkv
  simp only [mainMeta, List.mem_cons, List.not_mem_nil, or_false] at hkv
  rcases hkv with rfl | rfl | rfl | rfl | rfl | rfl | rfl | rfl | rfl | rfl | rfl <;> simp

theorem commentMeta_val_spec (wi : WorkItem) (t d a au da mo : String) :
    ∀ kv ∈ commentMeta wi t d a au da mo,
      kv = ("type", optStr wi.wtype) ∨ kv = ("state", optStr wi.state)
      ∨ (∃ s, kv.2 = MValue.str s) ∨ (∃ n, kv.2 = MValue.int n) := by
  intro kv hkv
  simp only [commentMeta, List.mem_cons, List.not_mem_nil, or_false] at hkv
  rcases hkv with rfl | rfl | rfl | rfl | rfl | rfl | rfl | rfl | rfl | rfl | rfl | rfl <;> simp

/-! ## Claim C2 (corrected)

The claim says every metadata value is a string or number and never null,
"including the type and state fields when the corresponding input fields
are absent".  The source stores `workitem.get("type")` /
`workitem.get("state")` directly, which is Python `None` when the key is
absent, so the claim fails exactly there. -/

def wiNullType : WorkItem :=
  { id := some 1, title := "t", description := "", acceptance_criteria := "",
    wtype := none, state := none, assignedTo := none, story_points := none,
    tags := none, createdDate := "", changedDate := "", comments := [] }

/-- C2, counterexample: a work item whose `type` field is absent produces
a record whose metadata holds `null` under `"type"`, falsifying
"every value ... is never null, including the type ... field when the
corresponding input field is absent". -/
theorem claim2_metadata_null_counterexample :
    ∃ recs, prepare_embedding_text idDeps wiNullType = .ok recs
      ∧ ∃ r ∈ recs, ("type", MValue.null) ∈ r.metadata := by
  refine ⟨_, rfl, ?_⟩
  decide

/-- C2, amended: in every emitted record, each metadata entry is either
the pass-through `type`/`state` field (whose value is the input field,
hence `null` exactly when that field is absent) or carries a string or
number value — in particular every value under any other key is never
null. -/
theorem claim2_metadata_nonnull_amended (deps : TextDeps) (wi : WorkItem)
    (recs : List ChunkRec) (h : prepare_embedding_text deps wi = .ok recs) :
    ∀ r ∈ recs, ∀ kv ∈ r.metadata,
      kv = ("type", optStr wi.wtype) ∨ kv = ("state", optStr wi.state)
      ∨ (∃ s, kv.2 = MValue.str s) ∨ (∃ n, kv.2 = MValue.int n) := by
  obtain ⟨ls, hm, rfl⟩ := prepare_ok_cases deps wi recs h
  intro r hr
  rcases List.mem_append.mp hr with hr' | hr'
  · have := (mainRecs_mem_spec wi _ _ _ r hr').2.2
    rw [this]
    exact mainMeta_val_spec wi _ _ _
  · obtain ⟨_, _, au, da, mo, hmeta⟩ :=
      (comments_spec deps wi _ _ _ wi.comments 0 ls hm).2 r hr'
    rw [hmeta]
    exact commentMeta_val_spec wi _ _ _ au da mo

/-- The C2 work item with the `type` field present. -/
def wiC2 : WorkItem := { wiNullType with wtype := some "Bug" }

/-- C2, witness for the amended theorem at a concrete input: the `"type"`
entry of the first record of `wiC2` satisfies the amended property. -/
theorem claim2_witness :
    ("type", optStr (some "Bug")) = ("type", optStr wiC2.wtype)
    ∨ ("type", optStr (some "Bug")) = ("state", optStr wiC2.state)
    ∨ (∃ s, (("type", optStr (some "Bug")) : String × MValue).2 = MValue.str s)
    ∨ (∃ n, (("type", optStr (some "Bug")) : String × MValue).2 = MValue.int n) := by
  have happ := claim2_metadata_nonnull_amended idDeps wiC2
    ((prepare_embedding_text idDeps wiC2).toOption.getD []) rfl
  exact happ (((prepare_embedding_text idDeps wiC2).toOption.getD []).headD
    ⟨none, .int 0, "", []⟩) (by decide) ("type", optStr (some "Bug")) (by decide)

/-! ## Claim C4 (confirmed): chunk-index uniqueness -/

/-- Extracts the integer of a main chunk index. -/
def intIdxOf : ChunkIndex → Option Nat
  | .int n => some n
  | .str _ => none

theorem filterMap_some_id (l : List Nat) : l.filterMap (fun n => some n) = l := by
  induction l <;> simp_all

/-- C4: over the records of one work item, the `(id, chunk_index)` pairs
contain no duplicates; the integer indices are exactly `0..M-1` for some
`M`, and every index is either an integer or a composite `c{i}_{j}`. -/
theorem claim4_chunk_index_unique (deps : TextDeps) (wi : WorkItem)
    (recs : List ChunkRec) (h : prepare_embedding_text deps wi = .ok recs) :
    (recs.map (fun r => (r.id, r.chunk_index))).Nodup
    ∧ (∃ M, recs.filterMap (fun r => intIdxOf r.chunk_index) = List.range M)
    ∧ ∀ r ∈ recs, (∃ n, r.chunk_index = .int n) ∨ ∃ i j, r.chunk_index = .str (mkIdx i j) := by
  have hid := recs_id_eq deps wi recs h
  obtain ⟨ls, hm, rfl⟩ := prepare_ok_cases deps wi recs h
  have hmainmem := mainRecs_mem_spec wi wi.title (clean_text deps wi.description)
    (clean_text deps wi.acceptance_criteria)
  obtain ⟨hcnodup, hcmem⟩ := comments_spec deps wi wi.title (clean_text deps wi.description)
    (clean_text deps wi.acceptance_criteria) wi.comments 0 ls hm
  have hcinodup : ((mainRecs wi wi.title (clean_text deps wi.description)
        (clean_text deps wi.acceptance_criteria) ++ ls.flatten).map
        (fun r => r.chunk_index)).Nodup := by
    rw [List.map_append]
    refine (mainRecs_ci_nodup wi _ _ _).append hcnodup ?_
    intro x hx hx'
    rcases List.mem_map.mp hx with ⟨r, hr, rfl⟩
    rcases List.mem_map.mp hx' with ⟨r', hr', hre⟩
    obtain ⟨⟨n, hn⟩, _, _⟩ := hmainmem r hr
    obtain ⟨⟨i, j, c, _, _, hj, _⟩, _, _⟩ := hcmem r' hr'
    rw [hn, hj] at hre
    exact ChunkIndex.noConfusion hre
  refine ⟨?_, ?_, ?_⟩
  · have hmape : (mainRecs wi wi.title (clean_text deps wi.description)
          (clean_text deps wi.acceptance_criteria) ++ ls.flatten).map
          (fun r => (r.id, r.chunk_index))
        = ((mainRecs wi wi.title (clean_text deps wi.description)
          (clean_text deps wi.acceptance_criteria) ++ ls.flatten).map
          (fun r => r.chunk_index)).map (fun x => (wi.id, x)) := by
      rw [List.map_map]
      refine List.map_congr_left ?_
      intro r hr
      simp only [Function.comp]
      rw [hid r hr]
    rw [hmape]
    exact hcinodup.map (fun x y hxy => by simpa using hxy)
  · obtain ⟨M, hM⟩ := mainRecs_map_ci wi wi.title (clean_text deps wi.description)
      (clean_text deps wi.acceptance_criteria)
    refine ⟨M, ?_⟩
    rw [List.filterMap_append]
    have h1 : (mainRecs wi wi.title (clean_text deps wi.description)
          (clean_text deps wi.acceptance_criteria)).filterMap
          (fun r => intIdxOf r.chunk_index)
        = List.range M := by
      rw [show (fun r : ChunkRec => intIdxOf r.chunk_index)
          = intIdxOf ∘ (fun r : ChunkRec => r.chunk_index) from rfl,
        ← List.filterMap_map, hM, List.filterMap_map,
        show intIdxOf ∘ ChunkIndex.int = (fun n => some n) from rfl,
        filterMap_some_id]
    have h2 : ls.flatten.filterMap (fun r => intIdxOf r.chunk_index) = [] := by
      rw [List.filterMap_eq_nil_iff]
      intro r hr
      obtain ⟨⟨i, j, c, _, _, hj, _⟩, _, _⟩ := hcmem r hr
      rw [hj]
      rfl
    rw [h1, h2, List.append_nil]
  · intro r hr
    rcases List.mem_append.mp hr with hr' | hr'
    · exact Or.inl (hmainmem r hr').1
    · obtain ⟨⟨i, j, c, _, _, hj, _⟩, _, _⟩ := hcmem r hr'
      exact Or.inr ⟨i, j, hj⟩

def wiC4 : WorkItem :=
  { id := some 42, title := "Title words here", description := "", acceptance_criteria := "",
    wtype := some "Bug", state := some "New", assignedTo := some "A",
    story_points := some 3, tags := some "x", createdDate := "2025-01-01T00:00:00Z",
    changedDate := "2025-01-02T00:00:00Z",
    comments := [{ createdBy := some "Ann", createdDate := "2025-01-28T20:08:35Z",
                   modifiedDate := "2025-01-28T20:08:35Z", text := "hello world" }] }

/-- C4, witness at a concrete work item with a main body and a comment. -/
theorem claim4_witness :
    (((prepare_embedding_text idDeps wiC4).toOption.getD []).map
      (fun r => (r.id, r.chunk_index))).Nodup := by
  have h := claim4_chunk_index_unique idDeps wiC4
    ((prepare_embedding_text idDeps wiC4).toOption.getD []) rfl
  exact h.1

/-! ## Claim C8 (confirmed): malformed comment timestamps are a hard failure -/

theorem commentRecs_not_ok_of_bad_date (deps : TextDeps) (wi : WorkItem)
    (t d a : String) (idx : Nat) (c : RawComment)
    (hbad : parsePyIso c.createdDate = none ∨ parsePyIso c.modifiedDate = none) :
    ∀ rs, commentRecs deps wi t d a idx c ≠ .ok rs := by
  intro rs hok
  rcases hbad with hb | hb
  · simp [commentRecs, hb] at hok
  · cases h1 : parsePyIso c.createdDate with
    | none => simp [commentRecs, h1] at hok
    | some dt => simp [commentRecs, h1, hb] at hok

/-- C8: a comment whose `createdDate` or `modifiedDate` does not parse as
an ISO-8601 timestamp (after the trailing-`Z` replacement) makes the whole
`prepare_embedding_text` call fail with an error. -/
theorem claim8_bad_timestamp_error (deps : TextDeps) (wi : WorkItem)
    (h : ∃ c ∈ wi.comments,
      parsePyIso c.createdDate = none ∨ parsePyIso c.modifiedDate = none) :
    ∃ e, prepare_embedding_text deps wi = .error e := by
  obtain ⟨c, hc, hbad⟩ := h
  obtain ⟨i, hi⟩ := enumFrom_mem_of_mem wi.comments 0 c hc
  obtain ⟨e, he⟩ := mapME_error_of_mem
    (fun p => commentRecs deps wi wi.title (clean_text deps wi.description)
      (clean_text deps wi.acceptance_criteria) p.1 p.2)
    (pyEnum wi.comments) (i, c) hi
    (fun rs => commentRecs_not_ok_of_bad_date deps wi _ _ _ i c hbad rs)
  exact ⟨e, by simp only [prepare_embedding_text, he]⟩

def cBadDate : RawComment :=
  { createdBy := some "A", createdDate := "garbage",
    modifiedDate := "2025-01-28T00:00:00Z", text := "hi" }

def wiBadDate : WorkItem :=
  { id := some 3, title := "T", description := "", acceptance_criteria := "",
    wtype := some "Bug", state := some "New", assignedTo := none,
    story_points := none, tags := none, createdDate := "", changedDate := "",
    comments := [cBadDate] }

/-- C8, witness: a concrete work item with an unparsable comment
`createdDate`. -/
theorem claim8_witness : ∃ e, prepare_embedding_text idDeps wiBadDate = .error e :=
  claim8_bad_timestamp_error idDeps wiBadDate
    ⟨cBadDate, by decide, Or.inl (by decide)⟩

/-! ## Claim C10 (confirmed): empty main body produces no main records -/

/-- C10: when the title is empty and description and acceptance criteria
both normalize to the empty string, every emitted record is a comment
record (`section = "comment"`); the main body contributes no records. -/
theorem claim10_no_main_records (deps : TextDeps) (wi : WorkItem)
    (recs : List ChunkRec)
    (ht : wi.title = "") (hd : clean_text deps wi.description = "")
    (ha : clean_text deps wi.acceptance_criteria = "")
    (h : prepare_embedding_text deps wi = .ok recs) :
    ∀ r ∈ recs, metaLookup r.metadata "section" = some (.str "comment") := by
  obtain ⟨ls, hm, rfl⟩ := prepare_ok_cases deps wi recs h
  have hmains : mainRecs wi wi.title (clean_text deps wi.description)
      (clean_text deps wi.acceptance_criteria) = [] := by
    rw [ht, hd, ha]
    rfl
  rw [hmains, List.nil_append]
  intro r hr
  obtain ⟨_, _, au, da, mo, hmeta⟩ :=
    (comments_spec deps wi _ _ _ wi.comments 0 ls hm).2 r hr
  rw [hmeta]
  rfl

def wiC10 : WorkItem :=
  { id := some 9, title := "", description := "", acceptance_criteria := "",
    wtype := some "Bug", state := some "New", assignedTo := none,
    story_points := none, tags := none, createdDate := "", changedDate := "",
    comments := [{ createdBy := some "Ann", createdDate := "2025-01-28T20:08:35Z",
                   modifiedDate := "2025-01-28T20:08:35Z", text := "only comment" }] }

/-- C10, witness at a concrete work item with empty main parts and one
non-empty comment: its first emitted record is a comment record. -/
theorem claim10_witness :
    metaLookup (((prepare_embedding_text idDeps wiC10).toOption.getD []).headD
      ⟨none, .int 0, "", []⟩).metadata "section" = some (.str "comment") :=
  claim10_no_main_records idDeps wiC10 _ rfl rfl rfl rfl
    (((prepare_embedding_text idDeps wiC10).toOption.getD []).headD
      ⟨none, .int 0, "", []⟩)
    (by decide)

/-! ## Claim C7 (corrected): empty comment elision -/

def cEmptyBadDate : RawComment :=
  { createdBy := none, createdDate := "", modifiedDate := "", text := "" }

def wiC7 : WorkItem :=
  { id := some 5, title := "t", description := "", acceptance_criteria := "",
    wtype := some "Bug", state := some "New", assignedTo := none,
    story_points := none, tags := none, createdDate := "", changedDate := "",
    comments := [cEmptyBadDate] }

/-- C7, counterexample: a comment whose raw text normalizes to the empty
string but whose `createdDate` is unparsable makes the run fail — the
timestamps are parsed *before* the empty-text check, so the comment is not
"skipped entirely" and the run does fail on it. -/
theorem claim7_empty_comment_counterexample :
    clean_text idDeps cEmptyBadDate.text = ""
    ∧ (prepare_embedding_text idDeps wiC7).toOption = none := by
  exact ⟨rfl, by decide⟩

/-- C7, amended: a comment whose timestamps parse and whose raw text
normalizes to the empty string produces zero records and no error in its
own loop iteration, and no record of a successful run carries that
comment's composite index. -/
theorem claim7_empty_comment_amended (deps : TextDeps) (wi : WorkItem)
    (idx : Nat) (c : RawComment)
    (hmem : (idx, c) ∈ pyEnum wi.comments)
    (h1 : ∃ d1, parsePyIso c.createdDate = some d1)
    (h2 : ∃ d2, parsePyIso c.modifiedDate = some d2)
    (hempty : clean_text deps c.text = "") :
    commentRecs deps wi wi.title (clean_text deps wi.description)
        (clean_text deps wi.acceptance_criteria) idx c = .ok []
    ∧ ∀ recs, prepare_embedding_text deps wi = .ok recs →
        ∀ r ∈ recs, ∀ j, r.chunk_index ≠ .str (mkIdx idx j) := by
  obtain ⟨d1, hd1⟩ := h1
  obtain ⟨d2, hd2⟩ := h2
  have hok : ∀ t d a, commentRecs deps wi t d a idx c = .ok [] := by
    intro t d a
    simp [commentRecs, hd1, hd2, hempty]
  refine ⟨hok _ _ _, ?_⟩
  intro recs h r hr j hj
  obtain ⟨ls, hm, rfl⟩ := prepare_ok_cases deps wi recs h
  rcases List.mem_append.mp hr with hr' | hr'
  · obtain ⟨⟨n, hn⟩, _, _⟩ := mainRecs_mem_spec wi _ _ _ r hr'
    rw [hn] at hj
    exact ChunkIndex.noConfusion hj
  · obtain ⟨⟨i, j', c', _, hic', hj', rs, hrs, hrmem⟩, _, _⟩ :=
      (comments_spec deps wi _ _ _ wi.comments 0 ls hm).2 r hr'
    rw [hj'] at hj
    have hii : i = idx := (mkIdx_inj (by simpa using hj)).1
    subst hii
    have hcc : c' = c := enumFrom_functional wi.comments 0 i c' c hic' hmem
    subst hcc
    rw [hok _ _ _] at hrs
    have : rs = [] := by simpa using hrs.symm
    subst this
    simp at hrmem

def cEmptyGoodDate : RawComment :=
  { createdBy := some "Ann", createdDate := "2025-01-28T20:08:35Z",
    modifiedDate := "2025-01-28T20:08:35Z", text := "   " }

def wiC7w : WorkItem :=
  { id := some 6, title := "t", description := "", acceptance_criteria := "",
    wtype := some "Bug", state := some "New", assignedTo := none,
    story_points := none, tags := none, createdDate := "", changedDate := "",
    comments := [cEmptyGoodDate] }

/-- C7, witness for the amended theorem: a whitespace-only comment with
parseable dates yields an empty record list for its iteration. -/
theorem claim7_witness :
    commentRecs idDeps wiC7w wiC7w.title (clean_text idDeps wiC7w.description)
      (clean_text idDeps wiC7w.acceptance_criteria) 0 cEmptyGoodDate = .ok [] :=
  (claim7_empty_comment_amended idDeps wiC7w 0 cEmptyGoodDate
    (by decide) ⟨⟨2025, 1, 28, 20, 8, 35, 0, some 0⟩, by decide⟩
    ⟨⟨2025, 1, 28, 20, 8, 35, 0, some 0⟩, by decide⟩ (by decide)).1

/-! ## Claim C5 (confirmed): the Chunker -/

/-- C5: `chunk_text` splits the whitespace words of the text into
contiguous, non-overlapping groups in original order — re-splitting the
chunks and concatenating recovers the original word sequence — with every
chunk non-empty and at most `maxWords` words, only the final chunk
shorter; empty input gives zero chunks; and a 1200-word text at
`maxWords = 500` gives exactly chunks of 500, 500 and 200 words. -/
theorem claim5_chunker (text : String) (m : Nat) (hm : 0 < m) :
    ((chunk_text text m).map pyWords).flatten = pyWords text
    ∧ (∀ c ∈ chunk_text text m, 0 < (pyWords c).length ∧ (pyWords c).length ≤ m)
    ∧ (∀ c ∈ (chunk_text text m).dropLast, (pyWords c).length = m)
    ∧ (pyWords text = [] → chunk_text text m = [])
    ∧ ((pyWords text).length = 1200 → m = 500 →
        (chunk_text text m).map (fun c => (pyWords c).length) = [500, 500, 200]) := by
  have hround : ∀ g ∈ chunkWords (pyWords text) m, pyWords (spaceJoin g) = g :=
    fun g hg => pyWords_of_group text m g hg
  have hmapeq : (chunk_text text m).map pyWords = chunkWords (pyWords text) m := by
    rw [chunk_text, List.map_map]
    exact List.map_congr_left (fun g hg => hround g hg) |>.trans
      (List.map_id (chunkWords (pyWords text) m))
  refine ⟨?_, ?_, ?_, ?_, ?_⟩
  · rw [hmapeq]
    exact chunkWords_join (pyWords text) m hm
  · intro c hc
    rcases List.mem_map.mp (by rw [chunk_text] at hc; exact hc) with ⟨g, hg, rfl⟩
    rw [hround g hg]
    have := chunkWords_sizes (pyWords text) m hm g hg
    exact ⟨this.1, this.2⟩
  · intro c hc
    rw [chunk_text, ← List.map_dropLast] at hc
    rcases List.mem_map.mp hc with ⟨g, hg, rfl⟩
    rw [hround g (List.dropLast_subset _ hg)]
    exact chunkWords_dropLast_full (pyWords text) m hm g hg
  · intro hnil
    rw [chunk_text, hnil, chunkWords_eq_nil [] m rfl]
    rfl
  · intro hlen hm500
    subst hm500
    have h12 := chunkWords_len_1200 (pyWords text) hlen
    rw [chunk_text, List.map_map]
    have : ((chunkWords (pyWords text) 500).map
          ((fun c => (pyWords c).length) ∘ spaceJoin))
        = (chunkWords (pyWords text) 500).map List.length :=
      List.map_congr_left (fun g hg => by
        simp only [Function.comp]
        rw [hround g hg])
    rw [this, h12]

/-- C5, witness: the general theorem applied at a small concrete text. -/
theorem claim5_witness :
    ((chunk_text "alpha beta gamma" 2).map pyWords).flatten
      = pyWords "alpha beta gamma" :=
  (claim5_chunker "alpha beta gamma" 2 (by decide)).1

/-! ## Claim C3 (confirmed): table flattening keeps only the generated rows -/

/-- C3: when at least two stripped lines start with `|`, the result is
exactly the space-join of the generated `Row: ...` sentences computed from
the `|`-lines alone — in particular the output is invariant under any
change of the input that preserves the `|`-lines, so non-table text is
absent from it. -/
theorem claim3_table_only_rows (t : String) (h : 2 ≤ (pipeLines t).length) :
    markdown_table_to_sentences t = spaceJoin (tableSentences (pipeLines t))
    ∧ ∀ t', pipeLines t' = pipeLines t →
        markdown_table_to_sentences t' = markdown_table_to_sentences t := by
  refine ⟨markdown_table_eq_tableSentences t h, ?_⟩
  intro t' ht'
  rw [markdown_table_eq_tableSentences t' (by rw [ht']; exact h),
    markdown_table_eq_tableSentences t h, ht']

/-- C3, witness: concrete input whose non-`|` lines vanish from the
output. -/
theorem claim3_witness :
    markdown_table_to_sentences "intro text\n|H|\n|-|\n|v|\ntrailing text"
      = spaceJoin (tableSentences
          (pipeLines "intro text\n|H|\n|-|\n|v|\ntrailing text")) :=
  (claim3_table_only_rows "intro text\n|H|\n|-|\n|v|\ntrailing text" (by decide)).1

/-! ## Claim C6 (confirmed): table flattening contract -/

/-- C6: fewer than two `|`-prefixed lines pass through unchanged; with at
least two, the first `|`-line supplies headers, the second is discarded,
and each later `|`-line becomes a `Row: ...` sentence exactly when its
cell count matches the header count (mismatches silently dropped); the
specific three-line table yields output containing
`"Row: ISID = DBEAM, ROLE = ADMIN."`. -/
theorem claim6_table_flattening (t : String) :
    ((pipeLines t).length < 2 → markdown_table_to_sentences t = t)
    ∧ (2 ≤ (pipeLines t).length →
        markdown_table_to_sentences t = spaceJoin (tableSentences (pipeLines t)))
    ∧ ∃ pre post,
        markdown_table_to_sentences "|ISID|ROLE|\n|---|---|\n|DBEAM|ADMIN|"
          = pre ++ "Row: ISID = DBEAM, ROLE = ADMIN." ++ post := by
  refine ⟨?_, markdown_table_eq_tableSentences t, ⟨"", "", by decide⟩⟩
  intro hlt
  unfold markdown_table_to_sentences
  rw [if_pos hlt]

/-- C6, witness: a single `|`-line passes through unchanged, and the
bound for the table branch. -/
theorem claim6_witness :
    markdown_table_to_sentences "|just one pipe line|" = "|just one pipe line|" :=
  (claim6_table_flattening "|just one pipe line|").1 (by decide)

/-! ## Claim C9 (confirmed): Sync Watermark Tracker -/

/-- The watermark fold specialised to an already-parsed list. -/
def foldParsed (ds : List UtcTime) (acc : Option UtcTime) : Option UtcTime :=
  ds.foldl
    (fun l d =>
      match l with
      | none => some d
      | some l' => if l'.micros < d.micros then some d else some l')
    acc

theorem latestFold_eq_foldParsed (off : Int) :
    ∀ (values : List String) (acc : Option UtcTime),
      latestFold off values acc
        = foldParsed (values.filterMap (parse_mixed_date off)) acc := by
  intro values
  induction values with
  | nil => intro acc; rfl
  | cons v vs ih =>
    intro acc
    cases hp : parse_mixed_date off v with
    | none =>
      rw [show latestFold off (v :: vs) acc
          = latestFold off vs (match parse_mixed_date off v with
            | some dt => match acc with
              | none => some dt
              | some l => if l.micros < dt.micros then some dt else some l
            | none => acc) from rfl]
      rw [hp, List.filterMap_cons, hp]
      exact ih acc
    | some dt =>
      rw [show latestFold off (v :: vs) acc
          = latestFold off vs (match parse_mixed_date off v with
            | some dt => match acc with
              | none => some dt
              | some l => if l.micros < dt.micros then some dt else some l
            | none => acc) from rfl]
      rw [hp, List.filterMap_cons, hp]
      exact ih _

theorem foldParsed_spec : ∀ (ds : List UtcTime) (acc : Option UtcTime),
    (foldParsed ds acc = none ↔ acc = none ∧ ds = [])
    ∧ ∀ d, foldParsed ds acc = some d →
        (d ∈ ds ∨ acc = some d)
        ∧ (∀ d' ∈ ds, d'.micros ≤ d.micros)
        ∧ (∀ a, acc = some a → a.micros ≤ d.micros) := by
  intro ds
  induction ds with
  | nil =>
    intro acc
    constructor
    · simp [foldParsed]
    · intro d hd
      simp only [foldParsed, List.foldl_nil] at hd
      exact ⟨Or.inr hd, by simp, fun a ha => by rw [ha] at hd; simp_all⟩
  | cons x xs ih =>
    intro acc
    cases acc with
    | none =>
      have hstep : foldParsed (x :: xs) none = foldParsed xs (some x) := rfl
      rw [hstep]
      constructor
      · constructor
        · intro hnone
          have := ((ih _).1).mp hnone
          exact absurd this.1 (by simp)
        · intro ⟨_, habs⟩
          exact List.noConfusion habs
      · intro d hd
        obtain ⟨hmem, hbound, hacc⟩ := (ih _).2 d hd
        refine ⟨?_, ?_, ?_⟩
        · rcases hmem with hm | hm
          · exact Or.inl (List.mem_cons_of_mem _ hm)
          · simp only [Option.some.injEq] at hm
            exact Or.inl (by rw [← hm]; exact List.mem_cons_self _ _)
        · intro d' hd'
          rcases List.mem_cons.mp hd' with rfl | hd''
          · exact hacc d' rfl
          · exact hbound d' hd''
        · intro a ha
          exact Option.noConfusion ha
    | some l' =>
      by_cases hlt : l'.micros < x.micros
      · have hstep : foldParsed (x :: xs) (some l') = foldParsed xs (some x) := by
          show foldParsed xs (if l'.micros < x.micros then some x else some l')
            = foldParsed xs (some x)
          rw [if_pos hlt]
        rw [hstep]
        constructor
        · constructor
          · intro hnone
            have := ((ih _).1).mp hnone
            exact absurd this.1 (by simp)
          · intro ⟨_, habs⟩
            exact List.noConfusion habs
        · intro d hd
          obtain ⟨hmem, hbound, hacc⟩ := (ih _).2 d hd
          refine ⟨?_, ?_, ?_⟩
          · rcases hmem with hm | hm
            · exact Or.inl (List.mem_cons_of_mem _ hm)
            · simp only [Option.some.injEq] at hm
              exact Or.inl (by rw [← hm]; exact List.mem_cons_self _ _)
          · intro d' hd'
            rcases List.mem_cons.mp hd' with rfl | hd''
            · exact hacc d' rfl
            · exact hbound d' hd''
          · intro a ha
            simp only [Option.some.injEq] at ha
            subst ha
            have hx := hacc x rfl
            omega
      · have hstep : foldParsed (x :: xs) (some l') = foldParsed xs (some l') := by
          show foldParsed xs (if l'.micros < x.micros then some x else some l')
            = foldParsed xs (some l')
          rw [if_neg hlt]
        rw [hstep]
        constructor
        · constructor
          · intro hnone
            have := ((ih _).1).mp hnone
            exact absurd this.1 (by simp)
          · intro ⟨_, habs⟩
            exact List.noConfusion habs
        · intro d hd
          obtain ⟨hmem, hbound, hacc⟩ := (ih _).2 d hd
          refine ⟨?_, ?_, ?_⟩
          · rcases hmem with hm | hm
            · exact Or.inl (List.mem_cons_of_mem _ hm)
            · exact Or.inr hm
          · intro d' hd'
            rcases List.mem_cons.mp hd' with rfl | hd''
            · have hl := hacc l' rfl
              omega
            · exact hbound d' hd''
          · intro a ha
            simp only [Option.some.injEq] at ha
            subst ha
            exact hacc _ rfl

/-- C9: the watermark is the maximum UTC-normalized timestamp among the
stored values that parse under the two-format parser; unparsable values
are skipped (the result depends only on the parsed values); when nothing
parses — in particular for an empty store — the sentinel
`1970-01-01T00:00:00Z` is returned. -/
theorem claim9_watermark (off : Int) (values : List String) :
    (values.filterMap (parse_mixed_date off) = [] →
      get_latest_modified_date off values = "1970-01-01T00:00:00Z")
    ∧ (values.filterMap (parse_mixed_date off) ≠ [] →
      ∃ d ∈ values.filterMap (parse_mixed_date off),
        get_latest_modified_date off values = isoZ d
        ∧ ∀ d' ∈ values.filterMap (parse_mixed_date off), d'.micros ≤ d.micros)
    ∧ ∀ values', values'.filterMap (parse_mixed_date off)
          = values.filterMap (parse_mixed_date off) →
        get_latest_modified_date off values' = get_latest_modified_date off values := by
  refine ⟨?_, ?_, ?_⟩
  · intro hnil
    rw [get_latest_modified_date, latestFold_eq_foldParsed, hnil]
    rfl
  · intro hne
    cases hres : latestFold off values none with
    | none =>
      rw [latestFold_eq_foldParsed] at hres
      have := ((foldParsed_spec _ none).1).mp hres
      exact absurd this.2 hne
    | some d =>
      rw [latestFold_eq_foldParsed] at hres
      obtain ⟨hmem, hbound, _⟩ := (foldParsed_spec _ none).2 d hres
      refine ⟨d, ?_, ?_, hbound⟩
      · rcases hmem with hm | hm
        · exact hm
        · exact Option.noConfusion hm
      · rw [get_latest_modified_date, latestFold_eq_foldParsed, hres]
  · intro values' heq
    rw [get_latest_modified_date, get_latest_modified_date,
      latestFold_eq_foldParsed, latestFold_eq_foldParsed, heq]

/-- C9, witness: the empty store yields the sentinel, via the theorem. -/
theorem claim9_witness :
    get_latest_modified_date 0 [] = "1970-01-01T00:00:00Z" :=
  (claim9_watermark 0 []).1 (by decide)

/-! ## Claim C1 (code bug): the Store Reconciler never deletes and
inserts only the last loaded record

`main` of `upload_chromadb.py` cannot implement the delete-then-insert
contract: the `where={"id": wid}` lookup targets a metadata key the
pipeline never writes, the id-collection comprehension raises a swallowed
`TypeError`, and `collection.add` uses the leaked loop variable `rec`
(the last record of the whole file) instead of the group's records. -/

def freshRec0 : ChunkRec :=
  { id := some 7, chunk_index := .int 0, embedding_text := "fresh zero",
    metadata := [("section", .str "main"), ("title", .str "T")] }

def freshRec1 : ChunkRec :=
  { id := some 7, chunk_index := .int 1, embedding_text := "fresh one",
    metadata := [("section", .str "main"), ("title", .str "T")] }

def staleEntry : StoreEntry :=
  { eid := "7_0", document := "stale doc",
    metadata := [("section", .str "main"), ("title", .str "Old")] }

/-- C1, evaluation at the failing input: reconciling the two fresh
records of work item 7 against a store holding one stale entry for that
item leaves the stale entry in place and inserts only the last record —
the store does not end up holding exactly the two fresh entries. -/
theorem claim1_reconciler_eval :
    upload_chromadb_main [freshRec0, freshRec1] [staleEntry]
        = .ok [staleEntry, mkEntry freshRec1]
    ∧ staleEntry ∈ [staleEntry, mkEntry freshRec1]
    ∧ mkEntry freshRec0 ∉ [staleEntry, mkEntry freshRec1]
    ∧ [staleEntry, mkEntry freshRec1] ≠ [mkEntry freshRec0, mkEntry freshRec1] := by
  refine ⟨rfl, by decide, by decide, by decide⟩

end UpdateChromadb
